import Mathlib

/-!
# Verification of the noisebandnet synthesis core

Shallow embedding of the synthesizer core of the repository
(`src/ddsp/synths.py` and the synthesis half of `src/modules/noisebandnet.py`).

Tensors are embedded as nested lists of rationals.  A control-rate or
audio-rate trajectory of one channel is a `List ℚ` (the time axis); a
(channel × time) tensor is a `List (List ℚ)`.  The batch dimension is fixed to
one throughout, which the claims under study permit (the continuity state of
every generator is explicitly per-instance, not per batch element); a 3-D
tensor that genuinely needs its leading dimension (the harmonic-broadcast
analysis) is a `List (List (List ℚ))`.

Sinusoidal phase is represented in *turns* (radians divided by `2·π`), so that
every step the code performs on phases — scaling by `2·π/fs`, cumulative
summation, wrap-around `% 2π`, carrying the last sample — is exact rational
arithmetic; the transcendental function is applied only in the final signal
assembly, as `Real.sin (2 * π * τ)`.
-/

namespace NBN

/-- A (channel × time) tensor. -/
abbrev Mat : Type := List (List ℚ)

/-- A (batch × channel × time) tensor. -/
abbrev Ten3 : Type := List Mat

/-- Size of the trailing (time) dimension of a tensor, `x.shape[-1]`.  Real
tensors are rectangular, so the first row's length is the shared length. -/
def timeDim (m : Mat) : ℕ := (m.headD []).length

/-- Source coordinate used by `torch.nn.functional.interpolate` with
`mode='linear'` and the default `align_corners=False` for output index `i` at
integer scale factor `r`: `max ((i + 0.5)/r - 0.5) 0`. -/
def srcIndex (r i : ℕ) : ℚ := max ((2 * i + 1 : ℚ) / (2 * r) - 1 / 2) 0

/-- `F.interpolate(x, scale_factor=r, mode='linear')` on one channel
(`align_corners=False`): output length `r * len`, each output sample a convex
combination of the two neighbouring input samples, clamped at the ends. -/
def interpLinear (r : ℕ) (xs : List ℚ) : List ℚ :=
  (List.range (r * xs.length)).map (fun i =>
    let s := srcIndex r i
    let i0 : ℕ := (⌊s⌋).toNat
    let i1 : ℕ := min (i0 + 1) (xs.length - 1)
    (1 - (s - (i0 : ℚ))) * xs.getD i0 0 + (s - (i0 : ℚ)) * xs.getD i1 0)

/-- Elementwise product of two rows. -/
def rowMul {α : Type} [Mul α] (x y : List α) : List α := List.zipWith (· * ·) x y

/-- Elementwise product of two (channel × time) tensors under the PyTorch
broadcasting rule for the channel dimension: equal channel counts multiply
pointwise, a channel count of one broadcasts against the other operand, and
any other disagreement is a runtime error (`none`). -/
def bcastMul {α : Type} [Mul α] (xs ys : List (List α)) : Option (List (List α)) :=
  if xs.length = ys.length then some (List.zipWith rowMul xs ys)
  else if xs.length = 1 then some (ys.map (fun row => rowMul (xs.headD []) row))
  else if ys.length = 1 then some (xs.map (fun row => rowMul row (ys.headD [])))
  else none

/-- `torch.sum(m, dim=1)` restricted to one batch element: the `t`-th output
sample is the sum of the `t`-th column over all channel rows. -/
def mixDown {α : Type} [AddCommMonoid α] (m : List (List α)) (len : ℕ) : List α :=
  (List.range len).map (fun t => (m.map (fun row => row.getD t 0)).sum)

/-- The tiled, rotated noisebands actually read by one render call
(`src/ddsp/synths.py` lines 75–86): `torch.roll` by `-shift`, the additional
training-only random roll by `rr`, then repeat-and-trim to `len` samples.
Row `j`, sample `t` reads `band[j][(t + shift - rr') mod bandLen]` with
`rr' = rr mod bandLen` active only in training mode. -/
def loopedBands (band : Mat) (shift : ℕ) (training : Bool) (rr : ℕ) (len : ℕ) : Mat :=
  band.map (fun row =>
    (List.range len).map (fun t =>
      row.getD ((t + shift + (timeDim band - (if training then rr % timeDim band else 0)))
        % timeDim band) 0))

/-- `NoiseBandSynth.__call__` (`src/ddsp/synths.py` lines 63–93).  Inputs: the
noiseband buffer `band`, the stored `_noisebands_shift`, the training flag, the
training-mode random roll `rr` (drawn by `torch.randint` in the source;
explicit here), and the control-rate `amplitudes`.  Returns the synthesized
signal (`none` when the elementwise product is a broadcasting error) paired
with the updated `_noisebands_shift`; the shift is updated before the product
is formed, exactly as in the source. -/
def noiseBandCall (r : ℕ) (band : Mat) (shift : ℕ) (training : Bool) (rr : ℕ) (amps : Mat) :
    Option (List ℚ) × ℕ :=
  ((bcastMul (amps.map (interpLinear r))
      (loopedBands band shift training rr (r * timeDim amps))).map
      (fun p => mixDown p (r * timeDim amps)),
   (shift + r * timeDim amps) % timeDim band)

/-- `NoiseBandNet._synthesize` (`src/modules/noisebandnet.py` lines 171–201):
upsample the predicted amplitudes, roll the noisebands by the stored
`_noisebands_shift`, apply the training-only random roll, tile and trim,
advance the shift, multiply and sum across bands. -/
def nbnSynthesize (r : ℕ) (band : Mat) (shift : ℕ) (training : Bool) (rr : ℕ) (amps : Mat) :
    Option (List ℚ) × ℕ :=
  ((bcastMul (amps.map (interpLinear r))
      (loopedBands band shift training rr (r * timeDim amps))).map
      (fun p => mixDown p (r * timeDim amps)),
   (shift + r * timeDim amps) % timeDim band)

/-- Running phase of one oscillator channel, in turns: `cumsum` of the
per-sample increments followed by the wrap `% 1` (the source works in radians
and wraps by `% 2π`; dividing by `2π` turns that into `Int.fract`). -/
def cumsum : List ℚ → List ℚ
  | [] => []
  | x :: xs => x :: (cumsum xs).map (fun c => x + c)

/-- Wrapped phase rows of `SineSynth.__call__` (lines 144–152): upsample the
frequencies, scale to per-sample turn increments `f / fs`, cumulative-sum along
time, wrap into `[0, 1)`. -/
def turnRows (fs r : ℕ) (freqs : Mat) : Mat :=
  (freqs.map (interpLinear r)).map (fun row =>
    (cumsum (row.map (fun f => f / (fs : ℚ)))).map Int.fract)

/-- Streaming phase-carry step of `SineSynth.__call__` (lines 154–160): add the
stored per-oscillator phase to every sample of the chunk, then store the last
time-step (wrapped) back.  A channel-count disagreement between the chunk and
the stored buffer is a broadcasting error (`none`), with the (possibly freshly
allocated) buffer left as it was. -/
def sineTurnsAux (turns0 : Mat) (p : List ℚ) : Option Mat × Option (List ℚ) :=
  if turns0.length = p.length then
    (some (List.zipWith (fun row c => row.map (fun q => q + c)) turns0 p),
     some ((List.zipWith (fun row c => row.map (fun q => q + c)) turns0 p).map
       (fun row => Int.fract (row.getLastD 0))))
  else (none, some p)

/-- Phase computation of `SineSynth.__call__` (lines 137–160) with batch size
one: in streaming mode the phase buffer is lazily allocated to zeros when
absent (`ph0.getD (replicate nSines 0)`; the reallocate-on-batch-change branch
never fires at fixed batch size), the carried phases are added, and the last
wrapped phases are stored; outside streaming mode the wrapped cumulative
phases are used directly and the buffer is untouched. -/
def sineTurnsCall (fs r nSines : ℕ) (streaming : Bool) (ph0 : Option (List ℚ))
    (freqs : Mat) : Option Mat × Option (List ℚ) :=
  if streaming then sineTurnsAux (turnRows fs r freqs) (ph0.getD (List.replicate nSines 0))
  else (some (turnRows fs r freqs), ph0)

/-- Embed a rational row into the reals. -/
def castRow (row : List ℚ) : List ℝ := row.map Rat.cast

/-- Apply the oscillator nonlinearity to a row of phases-in-turns:
`sin(2π·τ)`. -/
noncomputable def sinRow (row : List ℚ) : List ℝ :=
  row.map (fun q => Real.sin (2 * Real.pi * Rat.cast q))

/-- `SineSynth.__call__` (`src/ddsp/synths.py` lines 129–164): the synthesized
signal is the channel-sum of `amplitude * sin(phase)` with the amplitudes
upsampled like the frequencies, paired with the updated phase buffer.  Phase
`τ` is in turns, so `sin` is applied as `Real.sin (2π·τ)`. -/
noncomputable def sineSynthCall (fs r nSines : ℕ) (streaming : Bool)
    (ph0 : Option (List ℚ)) (freqs amps : Mat) : Option (List ℝ) × Option (List ℚ) :=
  ((sineTurnsCall fs r nSines streaming ph0 freqs).1.bind (fun tns =>
      (bcastMul ((amps.map (interpLinear r)).map castRow) (tns.map sinRow)).map
        (fun p => mixDown p (r * timeDim freqs))),
   (sineTurnsCall fs r nSines streaming ph0 freqs).2)

/-- `HarmonicSynth.__call__` lines 222–224: `torch.arange(1, n+1).reshape(1,-1,1)`
multiplied against the fundamental under full 3-D broadcasting.  With the
fundamental promoted to `(·, b, ·)`, the middle dimensions must agree or one
of them must be one; the result has `max b nH` rows per batch entry, row `j`
scaled by `harmonics[j] = j+1` (index 0 when `nH = 1` broadcasts). -/
def harmonicFrequencies (nH : ℕ) (fund : Ten3) : Option Ten3 :=
  if (fund.headD []).length = nH ∨ (fund.headD []).length = 1 ∨ nH = 1 then
    some (fund.map (fun m =>
      (List.range (max (fund.headD []).length nH)).map (fun j =>
        ((if (fund.headD []).length = 1 then m.headD [] else m.getD j []).map
          (fun q => q * (((if nH = 1 then 0 else j) + 1 : ℕ) : ℚ))))))
  else none

/-- The parameter interface of one registered synth: its `call_params` slot
widths in declaration order (`SynthSpec.slots`). -/
structure SynthSpec where
  slots : List ℕ

/-- `synth.total_params` — the sum of the slot widths. -/
def SynthSpec.total (s : SynthSpec) : ℕ := s.slots.sum

/-- `SynthRegister.total_params` (lines 246–248). -/
def registerTotalParams (synths : List SynthSpec) : ℕ :=
  (synths.map SynthSpec.total).sum

/-- Cut a flat vector into consecutive chunks of the given sizes. -/
def chunksOf : List ℕ → List ℚ → List (List ℚ)
  | [], _ => []
  | k :: ks, xs => xs.take k :: chunksOf ks (xs.drop k)

/-- `torch.split(x, sizes, dim=-1)`: errors unless the sizes sum exactly to
the dimension being split. -/
def splitSizes (sizes : List ℕ) (xs : List ℚ) : Option (List (List ℚ)) :=
  if sizes.sum = xs.length then some (chunksOf sizes xs) else none

/-- Loop body of `SynthRegister.split_params` (lines 259–266), iterating over
the registered synths.  `params_offset` is threaded through unchanged, exactly
as in the source, where it is initialized to `0` and never advanced: every
synth slices `params[..., params_offset : params_offset + total]` with the
same offset. -/
def splitParamsGo (params_offset : ℕ) (ps : List ℚ) :
    List SynthSpec → Option (List (List (List ℚ)))
  | [] => some []
  | s :: rest =>
    match splitSizes s.slots ((ps.drop params_offset).take s.total),
        splitParamsGo params_offset ps rest with
    | some chunk, some others => some (chunk :: others)
    | _, _ => none

/-- `SynthRegister.split_params` (lines 250–266) on one (batch, time) fiber of
the flat parameter tensor: slice each registered synth's sub-range starting at
`params_offset` (initialized to zero and, as in the source, never advanced),
then split the slice into the synth's declared slots. -/
def split_params (synths : List SynthSpec) (ps : List ℚ) :
    Option (List (List (List ℚ))) :=
  splitParamsGo 0 ps synths




/-- `bcastMul` succeeds exactly when the channel counts agree or one of them
is one. -/
theorem bcastMul_isSome {α : Type} [Mul α] (xs ys : List (List α)) :
    (bcastMul xs ys).isSome ↔
      (xs.length = ys.length ∨ xs.length = 1 ∨ ys.length = 1) := by
  unfold bcastMul
  split_ifs with h1 h2 h3 <;> simp_all

/-- `splitSizes` succeeds exactly when the sizes sum to the vector's length. -/
theorem splitSizes_isSome (sizes : List ℕ) (xs : List ℚ) :
    (splitSizes sizes xs).isSome ↔ sizes.sum = xs.length := by
  unfold splitSizes
  split_ifs with h <;> simp [h]

theorem splitParamsGo_isSome (ps : List ℚ) (synths : List SynthSpec) :
    (splitParamsGo 0 ps synths).isSome ↔
      ∀ s ∈ synths, SynthSpec.total s ≤ ps.length := by
  induction synths with
  | nil => simp [splitParamsGo]
  | cons s rest ih =>
    have hs : (splitSizes s.slots ((ps.drop 0).take s.total)).isSome ↔
        SynthSpec.total s ≤ ps.length := by
      rw [splitSizes_isSome]
      simp only [List.drop_zero, List.length_take, SynthSpec.total]
      constructor
      · intro h
        exact le_of_eq_of_le h (min_le_right _ _)
      · intro h
        exact (Nat.min_eq_left h).symm
    unfold splitParamsGo
    rcases h1 : splitSizes s.slots ((ps.drop 0).take s.total) with _ | chunk <;>
        rcases h2 : splitParamsGo 0 ps rest with _ | others <;>
        rw [h1] at hs <;> rw [h2] at ih <;> simp_all




/-- C1: parameter round-trip through `SynthRegister.split_params`.  The claim
requires the splitter to advance a running offset by each generator's
`total_params()`; the source initializes `params_offset` to zero and never
advances it, so with two registered one-parameter generators and the flat
vector `[1, 2]` (the concatenation of the originals `[1]` and `[2]`), the
second generator's recovered slot is `[1]`, not the original `[2]`: the
round-trip fails. -/
theorem C1_split_params_offset_never_advances :
    split_params [⟨[1]⟩, ⟨[1]⟩] [1, 2] = some [[[1]], [[1]]] ∧
      some [[[(1 : ℚ)]], [[1]]] ≠ some [[[(1 : ℚ)]], [[2]]] := by
  constructor
  · rfl
  · simp

/-- C4 counterexample: `split_params` does not reject a flat tensor whose last
dimension (here 2) differs from `total_params()` (here 1); it succeeds,
silently ignoring the excess width, instead of failing with
`InvalidShapeError`. -/
theorem C4_width_mismatch_not_rejected :
    registerTotalParams [⟨[1]⟩] ≠ ([5, 7] : List ℚ).length ∧
      split_params [⟨[1]⟩] [5, 7] = some [[[5]]] := by
  constructor
  · simp [registerTotalParams, SynthSpec.total]
  · rfl

/-- C4 (amended): `split_params` performs no width-equality check against
`total_params()` and raises no `InvalidShapeError`: it succeeds exactly when
every registered generator's `total_params()` fits inside the flat width
(extra width is silently ignored); only a vector too narrow for some
generator's slice fails, with a generic split error. -/
theorem C4_split_params_no_width_check (synths : List SynthSpec) (ps : List ℚ) :
    (split_params synths ps).isSome ↔
      ∀ s ∈ synths, SynthSpec.total s ≤ ps.length :=
  splitParamsGo_isSome ps synths

/-- C5 counterexample: a `NoiseBandSynth` render with an `amplitudes` slot of
one channel against two noisebands (channel width 1 ≠ declared `n_filters` 2)
does not fail with `InvalidShapeError`: the amplitude row silently broadcasts
across both bands and the call returns a signal. -/
theorem C5_channel_mismatch_broadcasts :
    ([[1]] : Mat).length ≠ ([[1, 1], [2, 2]] : Mat).length ∧
      (noiseBandCall 1 [[1, 1], [2, 2]] 0 false 0 [[1]]).1 = some [3] := by
  constructor
  · simp
  · norm_num [noiseBandCall, interpLinear, srcIndex, loopedBands, timeDim,
      bcastMul, rowMul, mixDown, List.range_succ]

/-- C5 (amended): render performs no shape validation and never raises
`InvalidShapeError`: the elementwise product behind a `NoiseBandSynth` render
succeeds exactly when the amplitude channel count equals the band count or one
of the two is 1 (in which case the mismatch silently broadcasts), and
otherwise fails with a generic broadcasting error. -/
theorem C5_render_broadcast_semantics (r : ℕ) (band : Mat) (shift : ℕ)
    (training : Bool) (rr : ℕ) (amps : Mat) :
    ((noiseBandCall r band shift training rr amps).1).isSome ↔
      (amps.length = band.length ∨ amps.length = 1 ∨ band.length = 1) := by
  show ((bcastMul (amps.map (interpLinear r))
      (loopedBands band shift training rr (r * timeDim amps))).map
      (fun p => mixDown p (r * timeDim amps))).isSome ↔ _
  have hmap : ∀ (o : Option Mat) (f : Mat → List ℚ), (o.map f).isSome = o.isSome := by
    intro o f
    cases o <;> rfl
  rw [hmap, bcastMul_isSome]
  simp [loopedBands]

/-- C7: `read_offset` invariant of `NoiseBandSynth`.  After any render call the
stored shift equals `(previous + upsampled length) mod band length`, hence lies
in `[0, band length)`, and the update is identical with training-mode
randomization on or off: the random roll never feeds into the offset. -/
theorem C7_read_offset_invariant (r : ℕ) (band : Mat) (shift : ℕ)
    (training : Bool) (rr : ℕ) (amps : Mat) (h : 0 < timeDim band) :
    (noiseBandCall r band shift training rr amps).2 =
        (shift + r * timeDim amps) % timeDim band ∧
      (noiseBandCall r band shift training rr amps).2 < timeDim band ∧
      (noiseBandCall r band shift training rr amps).2 =
        (noiseBandCall r band shift false 0 amps).2 :=
  ⟨rfl, Nat.mod_lt _ h, rfl⟩

/-- Witness for C7 at a concrete state: band of length 4, shift 1, training
mode with random roll 3, a one-band amplitude trajectory of length 3,
resampling factor 2. -/
theorem C7_read_offset_invariant_witness :
    0 < timeDim [[1, 1, 1, 1]] ∧
      ((noiseBandCall 2 [[1, 1, 1, 1]] 1 true 3 [[5, 5, 5]]).2 =
          (1 + 2 * timeDim [[5, 5, 5]]) % timeDim [[1, 1, 1, 1]] ∧
        (noiseBandCall 2 [[1, 1, 1, 1]] 1 true 3 [[5, 5, 5]]).2 < timeDim [[1, 1, 1, 1]] ∧
        (noiseBandCall 2 [[1, 1, 1, 1]] 1 true 3 [[5, 5, 5]]).2 =
          (noiseBandCall 2 [[1, 1, 1, 1]] 1 false 0 [[5, 5, 5]]).2) :=
  ⟨by norm_num [timeDim],
   C7_read_offset_invariant 2 [[1, 1, 1, 1]] 1 true 3 [[5, 5, 5]]
     (by norm_num [timeDim])⟩

/-- C8: the amplitude-synthesis path of the neural model
(`NoiseBandNet._synthesize`) and `NoiseBandSynth.__call__` are the same
algorithm: from the same noiseband buffer, stored read offset and amplitude
tensor, in non-training mode, they return equal signals and leave equal read
offsets. -/
theorem C8_synthesize_paths_equal (r : ℕ) (band : Mat) (shift : ℕ) (rr : ℕ)
    (amps : Mat) :
    nbnSynthesize r band shift false rr amps = noiseBandCall r band shift false rr amps :=
  rfl

/-- C9: determinism outside training.  With training-mode randomization
disabled, the render of a `NoiseBandSynth` does not depend on the random roll
that the training branch would have drawn: from the same starting state and
inputs, the output signal and resulting state are identical.  (The sine
generators take no random input at all, so their embedded renders are
functions of state and inputs by construction.) -/
theorem C9_eval_mode_determinism (r : ℕ) (band : Mat) (shift : ℕ) (amps : Mat)
    (rr1 rr2 : ℕ) :
    noiseBandCall r band shift false rr1 amps =
      noiseBandCall r band shift false rr2 amps :=
  rfl

/-- C10 (implicit): a non-streaming `SineSynth` is stateless: a render call
leaves the phase buffer exactly as it was (in particular a `none` buffer is
never allocated), and the output signal depends only on the frequency and
amplitude arguments — not on the stored phases or the configured oscillator
count. -/
theorem C10_nonstreaming_stateless (fs r n1 n2 : ℕ) (ph1 ph2 : Option (List ℚ))
    (freqs amps : Mat) :
    (sineSynthCall fs r n1 false ph1 freqs amps).1 =
        (sineSynthCall fs r n2 false ph2 freqs amps).1 ∧
      (sineSynthCall fs r n1 false ph1 freqs amps).2 = ph1 :=
  ⟨rfl, rfl⟩



/-- C6 counterexample: the claim also covers a 2-D fundamental of shape
(batch, control_len).  Promoted for broadcasting against
`arange(1, n+1).reshape(1, -1, 1)`, a (2, 2) fundamental becomes (1, 2, 2);
with `n_harmonics = 3` the middle dimensions (2 vs 3) are incompatible, so the
render fails with a broadcasting error instead of producing frequencies
`fundamental * (h+1)`. -/
theorem C6_flat_fundamental_fails :
    harmonicFrequencies 3 [[[1, 2], [3, 4]]] = none := by
  norm_num [harmonicFrequencies]

/-- C6 (amended): for a fundamental with a singleton harmonic-broadcast
dimension — shape (batch, 1, control_len), or the 2-D shape (batch,
control_len) only when batch = 1 — the frequencies handed to the underlying
sine rendering equal `fundamental * (h+1)` exactly, for each harmonic index
`h` in `0..n_harmonics`, broadcast across the harmonic dimension. -/
theorem C6_harmonic_derivation_singleton_dim (nH : ℕ) (fund : Ten3)
    (hpos : 0 < nH) (hne : fund ≠ []) (hone : ∀ m ∈ fund, m.length = 1) :
    harmonicFrequencies nH fund =
      some (fund.map (fun m => (List.range nH).map (fun h =>
        (m.headD []).map (fun q => q * ((h + 1 : ℕ) : ℚ))))) := by
  obtain ⟨m0, rest, rfl⟩ : ∃ m0 rest, fund = m0 :: rest := by
    cases fund with
    | nil => exact absurd rfl hne
    | cons a l => exact ⟨a, l, rfl⟩
  have hb : ((m0 :: rest).headD []).length = 1 := hone m0 (List.mem_cons_self m0 rest)
  unfold harmonicFrequencies
  rw [if_pos (Or.inr (Or.inl hb))]
  rw [hb, Nat.max_eq_right hpos]
  refine congrArg some (List.map_congr_left ?_)
  intro m _
  refine List.map_congr_left ?_
  intro j hj
  rw [List.mem_range] at hj
  rcases Nat.eq_or_lt_of_le hpos with h1 | h1
  · have hn1 : nH = 1 := h1.symm
    subst hn1
    interval_cases j
    simp
  · rw [if_neg (by omega)]
    simp

/-- Witness for C6 at a concrete input: three harmonics of the
batch-1 fundamental trajectory `[2, 5]` of shape (1, 1, 2). -/
theorem C6_harmonic_derivation_witness :
    0 < 3 ∧ ([[[2, 5]]] : Ten3) ≠ [] ∧ (∀ m ∈ ([[[2, 5]]] : Ten3), m.length = 1) ∧
      harmonicFrequencies 3 [[[2, 5]]] =
        some ([[[2, 5]]].map (fun m => (List.range 3).map (fun h =>
          (m.headD []).map (fun q => q * ((h + 1 : ℕ) : ℚ))))) :=
  ⟨by norm_num, by simp, by simp,
   C6_harmonic_derivation_singleton_dim 3 [[[2, 5]]] (by norm_num) (by simp) (by simp)⟩


/-- C2 counterexample: one band of length 4, all ones, starting read offset 0,
resampling factor 2, non-training.  The amplitude trajectory `[0, 1]` rendered
in one call gives `[0, 1/4, 3/4, 1]`, but rendered as the two consecutive
sub-calls `[0]` then `[1]` gives `[0, 0] ++ [1, 1]`: the linear upsampling of
each sub-chunk clamps at the chunk edge instead of interpolating across it, so
the concatenated output differs from the single call (by 1/4 at sample 1 —
far outside floating tolerance), even though the read offset itself resumes
correctly. -/
theorem C2_chunked_noiseband_render_differs :
    (noiseBandCall 2 [[1, 1, 1, 1]] 0 false 0 [[0, 1]]).1 ≠
      ((noiseBandCall 2 [[1, 1, 1, 1]] 0 false 0 [[0]]).1.bind (fun s1 =>
        ((noiseBandCall 2 [[1, 1, 1, 1]]
            (noiseBandCall 2 [[1, 1, 1, 1]] 0 false 0 [[0]]).2 false 0 [[1]]).1.map
          (fun s2 => s1 ++ s2)))) := by
  have h1 : (noiseBandCall 2 [[1, 1, 1, 1]] 0 false 0 [[0, 1]]).1 =
      some [0, 1/4, 3/4, 1] := by
    norm_num [noiseBandCall, interpLinear, srcIndex, loopedBands, timeDim,
      bcastMul, rowMul, mixDown, List.range_succ]
  have h2 : (noiseBandCall 2 [[1, 1, 1, 1]] 0 false 0 [[0]]).1 = some [0, 0] := by
    norm_num [noiseBandCall, interpLinear, srcIndex, loopedBands, timeDim,
      bcastMul, rowMul, mixDown, List.range_succ]
  have h2s : (noiseBandCall 2 [[1, 1, 1, 1]] 0 false 0 [[0]]).2 = 2 := by
    norm_num [noiseBandCall, timeDim]
  have h3 : (noiseBandCall 2 [[1, 1, 1, 1]] 2 false 0 [[1]]).1 = some [1, 1] := by
    norm_num [noiseBandCall, interpLinear, srcIndex, loopedBands, timeDim,
      bcastMul, rowMul, mixDown, List.range_succ]
  rw [h1, h2, h2s, h3]
  norm_num

theorem interpLinear_length (r : ℕ) (xs : List ℚ) :
    (interpLinear r xs).length = r * xs.length := by
  unfold interpLinear
  rw [List.length_map, List.length_range]

theorem getD_range_map {α : Type} (f : ℕ → α) (d : α) (n t : ℕ) (h : t < n) :
    ((List.range n).map f).getD t d = f t := by
  rw [List.getD_eq_getElem?_getD, List.getElem?_map, List.getElem?_range h]
  rfl

/-- Splitting a list-valued map over a shared index list into a `zipWith` of
appends. -/
theorem map_append_eq_zipWith {α β : Type} (f g : α → List β) (l : List α) :
    l.map (fun x => f x ++ g x) = List.zipWith (· ++ ·) (l.map f) (l.map g) := by
  induction l with
  | nil => rfl
  | cons x xs ih => simp only [List.map_cons, List.zipWith_cons_cons, ih]

/-- Columns of a rowwise append, left part: at a column inside the left
blocks, only the left blocks contribute. -/
theorem zipWith_append_col_left {α : Type} (U V : List (List α)) (d : α)
    (n1 t : ℕ) (hlen : U.length = V.length) (hU : ∀ row ∈ U, row.length = n1)
    (ht : t < n1) :
    (List.zipWith (· ++ ·) U V).map (fun row => row.getD t d)
      = U.map (fun row => row.getD t d) := by
  induction U generalizing V with
  | nil => cases V <;> simp_all
  | cons u us ih =>
    cases V with
    | nil => simp at hlen
    | cons v vs =>
      simp only [List.zipWith_cons_cons, List.map_cons]
      refine congrArg₂ _ ?_ ?_
      · exact List.getD_append u v d t
          (by rw [hU u (List.mem_cons_self u us)]; exact ht)
      · exact ih vs (by simpa using hlen)
          (fun row hr => hU row (List.mem_cons_of_mem u hr))

/-- Columns of a rowwise append, right part: at a column past the left blocks
(all of width `n1`), only the right blocks contribute. -/
theorem zipWith_append_col_right {α : Type} (U V : List (List α)) (d : α)
    (n1 t : ℕ) (hlen : U.length = V.length) (hU : ∀ row ∈ U, row.length = n1) :
    (List.zipWith (· ++ ·) U V).map (fun row => row.getD (n1 + t) d)
      = V.map (fun row => row.getD t d) := by
  induction U generalizing V with
  | nil => cases V <;> simp_all
  | cons u us ih =>
    cases V with
    | nil => simp at hlen
    | cons v vs =>
      simp only [List.zipWith_cons_cons, List.map_cons]
      refine congrArg₂ _ ?_ ?_
      · have hu : u.length = n1 := hU u (List.mem_cons_self u us)
        rw [List.getD_append_right u v d (n1 + t) (by omega), hu]
        congr 1
        omega
      · exact ih vs (by simpa using hlen)
          (fun row hr => hU row (List.mem_cons_of_mem u hr))

/-- `torch.sum(·, dim=1)` distributes over a rowwise (time-axis) split of the
summed tensor. -/
theorem mixDown_split {α : Type} [AddCommMonoid α] (U V : List (List α))
    (n1 n2 : ℕ) (hlen : U.length = V.length)
    (hU : ∀ row ∈ U, row.length = n1) :
    mixDown (List.zipWith (· ++ ·) U V) (n1 + n2) = mixDown U n1 ++ mixDown V n2 := by
  unfold mixDown
  rw [List.range_add, List.map_append, List.map_map]
  refine congrArg₂ _ ?_ ?_
  · refine List.map_congr_left ?_
    intro t ht
    rw [List.mem_range] at ht
    rw [zipWith_append_col_left U V 0 n1 t hlen hU ht]
  · refine List.map_congr_left ?_
    intro t _
    show ((List.zipWith (· ++ ·) U V).map (fun row => row.getD (n1 + t) 0)).sum = _
    rw [zipWith_append_col_right U V 0 n1 t hlen hU]

/-- The elementwise product of two rowwise-append tensors splits into the
append of the two elementwise products, when the left blocks share the same
width rowwise. -/
theorem zipWith_rowMul_append {α : Type} [Mul α]
    (X1 X2 Y1 Y2 : List (List α)) (n1 : ℕ)
    (hXY : X1.length = Y1.length) (hXX : X1.length = X2.length)
    (hXY2 : X1.length = Y2.length)
    (hrowX : ∀ row ∈ X1, row.length = n1) (hrowY : ∀ row ∈ Y1, row.length = n1) :
    List.zipWith rowMul (List.zipWith (· ++ ·) X1 X2) (List.zipWith (· ++ ·) Y1 Y2)
      = List.zipWith (· ++ ·) (List.zipWith rowMul X1 Y1)
          (List.zipWith rowMul X2 Y2) := by
  induction X1 generalizing X2 Y1 Y2 with
  | nil =>
    cases Y1 <;> cases X2 <;> cases Y2 <;> simp_all
  | cons x xs ih =>
    cases Y1 with
    | nil => simp at hXY
    | cons y ys =>
      cases X2 with
      | nil => simp at hXX
      | cons x2 xs2 =>
        cases Y2 with
        | nil => simp at hXY2
        | cons y2 ys2 =>
          simp only [List.zipWith_cons_cons]
          refine congrArg₂ _ ?_ ?_
          · unfold rowMul
            exact List.zipWith_append _ x x2 y y2
              (by rw [hrowX x (List.mem_cons_self x xs),
                      hrowY y (List.mem_cons_self y ys)])
          · exact ih xs2 ys ys2 (by simpa using hXY) (by simpa using hXX)
              (by simpa using hXY2)
              (fun row hr => hrowX row (List.mem_cons_of_mem x hr))
              (fun row hr => hrowY row (List.mem_cons_of_mem y hr))

/-- The looped-band windows of a long render split into the windows of the
first chunk followed by the windows of a second chunk starting at the advanced
read offset: the band reads resume exactly where the first chunk stopped. -/
theorem mod_resume (Lb s n1 t : ℕ) :
    (n1 + t + s + Lb) % Lb = (t + (s + n1) % Lb + Lb) % Lb := by
  conv_rhs => rw [show t + (s + n1) % Lb + Lb = (s + n1) % Lb + (t + Lb) from by omega]
  rw [Nat.mod_add_mod]
  congr 1
  omega

theorem loopedBands_split (band : Mat) (shift : ℕ) (n1 n2 : ℕ) :
    loopedBands band shift false 0 (n1 + n2)
      = List.zipWith (· ++ ·) (loopedBands band shift false 0 n1)
          (loopedBands band ((shift + n1) % timeDim band) false 0 n2) := by
  unfold loopedBands
  rw [← map_append_eq_zipWith]
  refine List.map_congr_left ?_
  intro row _
  rw [List.range_add, List.map_append, List.map_map]
  refine congrArg₂ _ rfl ?_
  refine List.map_congr_left ?_
  intro t _
  simp only [Function.comp_apply]
  have hIf : timeDim band - (if false = true then 0 % timeDim band else 0)
      = timeDim band := by norm_num
  rw [hIf]
  exact congrArg₂ row.getD (mod_resume (timeDim band) shift n1 t) rfl

/-- Rows of an elementwise product of tensors with rows of width `n` have
width `n`. -/
theorem zipWith_rowMul_row_length {α : Type} [Mul α] (X Y : List (List α))
    (n : ℕ) (hX : ∀ row ∈ X, row.length = n) (hY : ∀ row ∈ Y, row.length = n) :
    ∀ row ∈ List.zipWith rowMul X Y, row.length = n := by
  induction X generalizing Y with
  | nil => simp
  | cons x xs ih =>
    cases Y with
    | nil => simp
    | cons y ys =>
      intro row hr
      rcases List.mem_cons.mp hr with h | h
      · subst h
        rw [rowMul, List.length_zipWith, hX x (List.mem_cons_self x xs),
          hY y (List.mem_cons_self y ys), min_self]
      · exact ih ys (fun w hw => hX w (List.mem_cons_of_mem x hw))
          (fun w hw => hY w (List.mem_cons_of_mem y hw)) row h

/-- C2 (amended): noise-band continuity holds exactly up to the control-rate
upsampling of the amplitudes.  For a `NoiseBandSynth` in non-training mode
with amplitude channel count matching the band count, splitting a trajectory
`A` into consecutive chunks `A1`, `A2` and rendering them in two consecutive
calls yields the single-call output and final read offset, **provided** the
linear upsampling of `A` equals the concatenation of the upsamplings of `A1`
and `A2` (e.g. for constant trajectories).  The band reads themselves always
resume exactly where the first chunk stopped; only the upsampling of the
control signal near the chunk boundary can differ, as the counterexample
shows. -/
theorem C2_noiseband_continuity (r : ℕ) (band : Mat) (shift : ℕ)
    (A A1 A2 : Mat)
    (hCF : A.length = band.length)
    (hC1 : A1.length = A.length) (hC2 : A2.length = A.length)
    (hT : timeDim A = timeDim A1 + timeDim A2)
    (hrect1 : ∀ row ∈ A1, row.length = timeDim A1)
    (hsplit : A.map (interpLinear r)
      = List.zipWith (· ++ ·) (A1.map (interpLinear r)) (A2.map (interpLinear r))) :
    (noiseBandCall r band shift false 0 A).1 =
      ((noiseBandCall r band shift false 0 A1).1.bind (fun s1 =>
        ((noiseBandCall r band (noiseBandCall r band shift false 0 A1).2 false 0 A2).1.map
          (fun s2 => s1 ++ s2)))) ∧
    (noiseBandCall r band shift false 0 A).2 =
      (noiseBandCall r band (noiseBandCall r band shift false 0 A1).2 false 0 A2).2 := by
  have hbc : ∀ (X Y : Mat), X.length = Y.length →
      bcastMul X Y = some (List.zipWith rowMul X Y) := by
    intro X Y h
    simp [bcastMul, h]
  constructor
  · -- signal equality
    have hupLen : ∀ row ∈ A1.map (interpLinear r), row.length = r * timeDim A1 := by
      intro row hr
      rw [List.mem_map] at hr
      obtain ⟨a, ha, rfl⟩ := hr
      rw [interpLinear_length, hrect1 a ha]
    have hY1row : ∀ row ∈ loopedBands band shift false 0 (r * timeDim A1),
        row.length = r * timeDim A1 := by
      intro row hr
      rw [loopedBands, List.mem_map] at hr
      obtain ⟨b, hb, rfl⟩ := hr
      rw [List.length_map, List.length_range]
    have hsplitLoop : loopedBands band shift false 0 (r * timeDim A)
        = List.zipWith (· ++ ·) (loopedBands band shift false 0 (r * timeDim A1))
            (loopedBands band ((shift + r * timeDim A1) % timeDim band) false 0
              (r * timeDim A2)) := by
      rw [hT, Nat.mul_add]
      exact loopedBands_split band shift (r * timeDim A1) (r * timeDim A2)
    have hprod : List.zipWith rowMul (A.map (interpLinear r))
          (loopedBands band shift false 0 (r * timeDim A))
        = List.zipWith (· ++ ·)
            (List.zipWith rowMul (A1.map (interpLinear r))
              (loopedBands band shift false 0 (r * timeDim A1)))
            (List.zipWith rowMul (A2.map (interpLinear r))
              (loopedBands band ((shift + r * timeDim A1) % timeDim band) false 0
                (r * timeDim A2))) := by
      rw [hsplit, hsplitLoop]
      exact zipWith_rowMul_append _ _ _ _ (r * timeDim A1)
        (by simp [loopedBands, hC1, hCF]) (by simp [hC1, hC2])
        (by simp [loopedBands, hC1, hCF]) hupLen hY1row
    have e1 : (noiseBandCall r band shift false 0 A1).1
        = some (mixDown (List.zipWith rowMul (A1.map (interpLinear r))
            (loopedBands band shift false 0 (r * timeDim A1))) (r * timeDim A1)) := by
      show ((bcastMul _ _).map _) = _
      rw [hbc _ _ (by simp [loopedBands, hC1, hCF])]
      rfl
    have e2 : (noiseBandCall r band ((shift + r * timeDim A1) % timeDim band)
          false 0 A2).1
        = some (mixDown (List.zipWith rowMul (A2.map (interpLinear r))
            (loopedBands band ((shift + r * timeDim A1) % timeDim band) false 0
              (r * timeDim A2))) (r * timeDim A2)) := by
      show ((bcastMul _ _).map _) = _
      rw [hbc _ _ (by simp [loopedBands, hC2, hCF])]
      rfl
    have eW : (noiseBandCall r band shift false 0 A).1
        = some (mixDown (List.zipWith rowMul (A.map (interpLinear r))
            (loopedBands band shift false 0 (r * timeDim A))) (r * timeDim A)) := by
      show ((bcastMul _ _).map _) = _
      rw [hbc _ _ (by simp [loopedBands, hCF])]
      rfl
    rw [show (noiseBandCall r band shift false 0 A1).2
        = (shift + r * timeDim A1) % timeDim band from rfl]
    rw [eW, e1, e2]
    refine congrArg some ?_
    rw [hprod, hT, Nat.mul_add]
    exact mixDown_split _ _ _ _
      (by simp [List.length_zipWith, loopedBands, hC1, hC2])
      (zipWith_rowMul_row_length _ _ _ hupLen hY1row)
  · -- read-offset equality
    show (shift + r * timeDim A) % timeDim band
        = ((shift + r * timeDim A1) % timeDim band + r * timeDim A2) % timeDim band
    rw [Nat.mod_add_mod, hT, Nat.mul_add]
    congr 1
    omega

/-- Witness for C2: band `[1, 2, 3, 4]`, read offset 1, resampling factor 2,
constant amplitude trajectory `[5, 5]` split as `[5]` then `[5]`; constant
trajectories upsample chunk-compatibly, so the amended continuity theorem
applies. -/
theorem C2_noiseband_continuity_witness :
    (([[5, 5]] : Mat).map (interpLinear 2)
        = List.zipWith (· ++ ·) (([[5]] : Mat).map (interpLinear 2))
            (([[5]] : Mat).map (interpLinear 2))) ∧
      ((noiseBandCall 2 [[1, 2, 3, 4]] 1 false 0 [[5, 5]]).1 =
        ((noiseBandCall 2 [[1, 2, 3, 4]] 1 false 0 [[5]]).1.bind (fun s1 =>
          ((noiseBandCall 2 [[1, 2, 3, 4]]
              (noiseBandCall 2 [[1, 2, 3, 4]] 1 false 0 [[5]]).2 false 0 [[5]]).1.map
            (fun s2 => s1 ++ s2)))) ∧
      (noiseBandCall 2 [[1, 2, 3, 4]] 1 false 0 [[5, 5]]).2 =
        (noiseBandCall 2 [[1, 2, 3, 4]]
          (noiseBandCall 2 [[1, 2, 3, 4]] 1 false 0 [[5]]).2 false 0 [[5]]).2) :=
  ⟨by norm_num [interpLinear, srcIndex, List.range_succ],
   C2_noiseband_continuity 2 [[1, 2, 3, 4]] 1 [[5, 5]] [[5]] [[5]]
     (by simp) (by simp) (by simp) (by simp [timeDim])
     (by intro row hr; simp [timeDim] at hr ⊢; simp [hr])
     (by norm_num [interpLinear, srcIndex, List.range_succ])⟩

theorem cumsum_length (u : List ℚ) : (cumsum u).length = u.length := by
  induction u with
  | nil => rfl
  | cons x xs ih => simp [cumsum, ih]

theorem cumsum_append (u v : List ℚ) :
    cumsum (u ++ v) = cumsum u ++ (cumsum v).map (fun c => u.sum + c) := by
  induction u with
  | nil =>
    simp only [List.nil_append, cumsum, List.sum_nil, zero_add]
    rw [show (fun (c : ℚ) => c) = id from rfl, List.map_id]
  | cons x xs ih =>
    show x :: (cumsum (xs ++ v)).map (fun c => x + c)
        =  (x :: (cumsum xs).map (fun c => x + c))
        ++ (cumsum v).map (fun c => (x :: xs).sum + c)
    rw [ih, List.map_append, List.map_map, List.cons_append]
    refine congrArg _ (congrArg _ ?_)
    refine List.map_congr_left ?_
    intro c _
    simp [Function.comp, List.sum_cons, add_assoc]

theorem getLastD_map_apply (f : ℚ → ℚ) (l : List ℚ) :
    ∀ a : ℚ, (l.map f).getLastD (f a) = f (l.getLastD a) := by
  induction l with
  | nil => intro a; rfl
  | cons x xs ih =>
    intro a
    rw [List.map_cons, List.getLastD_cons, List.getLastD_cons]
    exact ih x

/-- `getLastD` with default `0` commutes with mapping a zero-preserving
function. -/
theorem getLastD_map_zero (f : ℚ → ℚ) (h0 : f 0 = 0) (l : List ℚ) :
    (l.map f).getLastD 0 = f (l.getLastD 0) := by
  have h := getLastD_map_apply f l 0
  rw [h0] at h
  exact h

/-- For a nonempty list `getLastD` ignores its default, so it commutes with
any map. -/
theorem getLastD_map_of_ne (f : ℚ → ℚ) (l : List ℚ) (hl : l ≠ []) (d1 d2 : ℚ) :
    (l.map f).getLastD d1 = f (l.getLastD d2) := by
  cases hx : l.getLast? with
  | none => exact absurd (by simpa using hx) hl
  | some x =>
    rw [List.getLastD_eq_getLast?, List.getLastD_eq_getLast?, List.getLast?_map, hx]
    rfl

theorem cumsum_getLastD (u : List ℚ) : (cumsum u).getLastD 0 = u.sum := by
  induction u with
  | nil => rfl
  | cons x xs ih =>
    rw [cumsum, List.getLastD_cons]
    have h := getLastD_map_apply (fun c => x + c) (cumsum xs) 0
    rw [add_zero] at h
    rw [h, ih, List.sum_cons]

theorem cumsum_ne_nil (u : List ℚ) (hu : u ≠ []) : cumsum u ≠ [] := by
  intro h
  apply hu
  have := cumsum_length u
  rw [h] at this
  exact List.eq_nil_of_length_eq_zero this.symm

/-- The running-offset carry of a chunk: the last wrapped phase equals the
wrap of the chunk's total phase increment. -/
theorem fract_getLastD_turns (u : List ℚ) :
    Int.fract (((cumsum u).map Int.fract).getLastD 0) = Int.fract u.sum := by
  rw [getLastD_map_zero Int.fract Int.fract_zero, cumsum_getLastD, Int.fract_fract]

theorem fract_fract_add (a b : ℚ) :
    Int.fract (Int.fract a + Int.fract b) = Int.fract (a + b) := by
  have h : Int.fract a + Int.fract b = (a + b) - ((⌊a⌋ + ⌊b⌋ : ℤ) : ℚ) := by
    rw [Int.fract, Int.fract]
    push_cast
    ring
  rw [h, Int.fract_sub_int]

/-- `sin(2π·τ)` only sees the fractional part of the turn count. -/
theorem sin2pi_fract (q : ℚ) :
    Real.sin (2 * Real.pi * ((Int.fract q : ℚ) : ℝ))
      = Real.sin (2 * Real.pi * (q : ℝ)) := by
  have h : ((Int.fract q : ℚ) : ℝ) = (q : ℝ) + ((-⌊q⌋ : ℤ) : ℝ) := by
    rw [Int.fract]
    push_cast
    ring
  rw [h, mul_add,
    show (2 : ℝ) * Real.pi * ((-⌊q⌋ : ℤ) : ℝ) = ((-⌊q⌋ : ℤ) : ℝ) * (2 * Real.pi) from by
      ring]
  exact Real.sin_add_int_mul_two_pi _ _

/-- Adding the wrapped carry to a wrapped phase gives the same sine sample as
wrapping the direct sum: the two differ by an integer number of turns. -/
theorem sin2pi_fract_add_fract (S c : ℚ) :
    Real.sin (2 * Real.pi * ((Int.fract c + Int.fract S : ℚ) : ℝ))
      = Real.sin (2 * Real.pi * ((Int.fract (S + c) : ℚ) : ℝ)) := by
  rw [← sin2pi_fract (Int.fract c + Int.fract S), fract_fract_add, add_comm c S]

/-- Core per-oscillator continuity at the sine level: the sine samples of the
wrapped cumulative phase of a whole increment trajectory equal the sine
samples of the first chunk followed by those of the second chunk with the
first chunk's wrapped final phase added as carry.  The underlying turn counts
differ by integers, which `sin(2π·)` cannot see. -/
theorem sinRow_cumsum_append (u v : List ℚ) :
    sinRow ((cumsum (u ++ v)).map Int.fract)
      = sinRow ((cumsum u).map Int.fract)
        ++ sinRow (((cumsum v).map Int.fract).map
            (fun q => q + Int.fract (((cumsum u).map Int.fract).getLastD 0))) := by
  rw [cumsum_append, List.map_append]
  unfold sinRow
  rw [List.map_append]
  refine congrArg₂ _ rfl ?_
  rw [List.map_map, List.map_map, List.map_map, List.map_map]
  refine List.map_congr_left ?_
  intro c _
  show Real.sin (2 * Real.pi * ((Int.fract (u.sum + c) : ℚ) : ℝ)) = _
  show _ = Real.sin (2 * Real.pi *
    ((Int.fract c + Int.fract (((cumsum u).map Int.fract).getLastD 0) : ℚ) : ℝ))
  rw [fract_getLastD_turns, sin2pi_fract_add_fract]

/-- Per-oscillator carry continuity: the stored phase after rendering the
whole trajectory equals the stored phase after rendering the second chunk on
top of the first chunk's stored phase (second chunk nonempty). -/
theorem fract_carry_append (u v : List ℚ) (hv : v ≠ []) :
    Int.fract (((cumsum (u ++ v)).map Int.fract).getLastD 0)
      = Int.fract ((((cumsum v).map Int.fract).map
          (fun q => q + Int.fract (((cumsum u).map Int.fract).getLastD 0))).getLastD 0) := by
  have hcv : (cumsum v).map Int.fract ≠ [] := by
    intro h
    exact cumsum_ne_nil v hv (List.map_eq_nil_iff.mp h)
  rw [fract_getLastD_turns,
    getLastD_map_of_ne _ _ hcv 0 0,
    getLastD_map_zero Int.fract Int.fract_zero, cumsum_getLastD,
    fract_getLastD_turns, fract_fract_add, List.sum_append,
    add_comm v.sum u.sum]

/-- Adding a zero carry to every oscillator row is the identity. -/
theorem zipWith_map_add_zero (X : Mat) (n : ℕ) (h : X.length = n) :
    List.zipWith (fun row c => row.map (fun q => q + c)) X
      (List.replicate n (0 : ℚ)) = X := by
  induction X generalizing n with
  | nil => simp
  | cons x xs ih =>
    cases n with
    | zero => simp at h
    | succ m =>
      rw [List.replicate_succ, List.zipWith_cons_cons, ih m (by simpa using h)]
      simp

theorem zipWith_append_map_zip {A B β : Type} (g : A → List β) (k : A → B → List β)
    (as : List A) (bs : List B) :
    List.zipWith (· ++ ·) (as.map g) (List.zipWith k as bs)
      = List.zipWith (fun a b => g a ++ k a b) as bs := by
  induction as generalizing bs with
  | nil => simp
  | cons a as ih =>
    cases bs with
    | nil => simp
    | cons b bs =>
      simp only [List.map_cons, List.zipWith_cons_cons]
      rw [ih]

theorem zipWith_congr_right_mem {A B β : Type} (f g : A → B → β)
    (as : List A) (bs : List B) (h : ∀ b ∈ bs, ∀ a, f a b = g a b) :
    List.zipWith f as bs = List.zipWith g as bs := by
  induction as generalizing bs with
  | nil => simp
  | cons a as ih =>
    cases bs with
    | nil => simp
    | cons b bs =>
      simp only [List.zipWith_cons_cons]
      rw [h b (List.mem_cons_self b bs) a,
        ih bs (fun w hw a => h w (List.mem_cons_of_mem b hw) a)]

/-- A rowwise map that distributes over append distributes over a rowwise
append of tensors. -/
theorem map_rows_zipWith_append {β : Type} (f : List ℚ → List β)
    (hf : ∀ a b, f (a ++ b) = f a ++ f b) (P Q : Mat) :
    (List.zipWith (· ++ ·) P Q).map f
      = List.zipWith (· ++ ·) (P.map f) (Q.map f) := by
  rw [List.map_zipWith, List.zipWith_map]
  refine congrFun (congrFun (congrArg _ ?_) P) Q
  funext a b
  exact hf a b

theorem turnRows_length (fs r : ℕ) (F : Mat) : (turnRows fs r F).length = F.length := by
  simp [turnRows]

/-- A streaming call on a freshly zeroed (lazily allocated) phase buffer: the
zero carry is the identity, the buffer is filled with the wrapped final
phases. -/
theorem sineTurnsCall_fresh (fs r n : ℕ) (F : Mat) (hF : F.length = n) :
    sineTurnsCall fs r n true none F
      = (some (turnRows fs r F),
         some ((turnRows fs r F).map (fun row => Int.fract (row.getLastD 0)))) := by
  have hlen : (turnRows fs r F).length = n := by rw [turnRows_length, hF]
  have hz := zipWith_map_add_zero (turnRows fs r F) n hlen
  unfold sineTurnsCall sineTurnsAux
  simp only [if_true, Option.getD_none]
  rw [if_pos (by rw [hlen, List.length_replicate]), hz]

/-- A streaming call on a stored phase buffer of matching width adds the
carry to every sample and stores the wrapped final phases. -/
theorem sineTurnsCall_carry (fs r n : ℕ) (F : Mat) (p : List ℚ)
    (hF : F.length = n) (hp : p.length = n) :
    sineTurnsCall fs r n true (some p) F
      = (some (List.zipWith (fun row c => row.map (fun q => q + c))
            (turnRows fs r F) p),
         some ((List.zipWith (fun row c => row.map (fun q => q + c))
            (turnRows fs r F) p).map (fun row => Int.fract (row.getLastD 0)))) := by
  unfold sineTurnsCall sineTurnsAux
  simp only [if_true, Option.getD_some]
  rw [if_pos (by rw [turnRows_length, hF, hp])]

/-- Matrix form of `sinRow_cumsum_append`, over already-upsampled frequency
rows: the sine samples of the wrapped cumulative phases of rowwise-appended
trajectories split into the first block's samples followed by the second
block's samples with the first block's wrapped final phases as carries. -/
theorem sinMat_turns_split (fs : ℕ) (U1 U2 : Mat) :
    ((List.zipWith (· ++ ·) U1 U2).map (fun row =>
        (cumsum (row.map (fun f => f / (fs : ℚ)))).map Int.fract)).map sinRow
      = List.zipWith (· ++ ·)
          ((U1.map (fun row =>
            (cumsum (row.map (fun f => f / (fs : ℚ)))).map Int.fract)).map sinRow)
          ((List.zipWith (fun row c => row.map (fun q => q + c))
            (U2.map (fun row =>
              (cumsum (row.map (fun f => f / (fs : ℚ)))).map Int.fract))
            ((U1.map (fun row =>
              (cumsum (row.map (fun f => f / (fs : ℚ)))).map Int.fract)).map
                (fun row => Int.fract (row.getLastD 0)))).map sinRow) := by
  induction U1 generalizing U2 with
  | nil => cases U2 <;> simp
  | cons a as ih =>
    cases U2 with
    | nil => simp
    | cons b bs =>
      simp only [List.zipWith_cons_cons, List.map_cons]
      refine congrArg₂ _ ?_ (ih bs)
      show sinRow ((cumsum ((a ++ b).map (fun f => f / (fs : ℚ)))).map Int.fract) = _
      rw [List.map_append]
      exact sinRow_cumsum_append _ _

/-- The sine-sample matrix of a whole trajectory splits, across the time
axis, into the sine-sample matrix of the first chunk followed by that of the
second chunk rendered on top of the first chunk's stored phases — provided
the upsampled frequency rows of the whole equal the concatenations of the
chunks' upsampled rows. -/
theorem sinMat_split (fs r : ℕ) (F F1 F2 : Mat)
    (hFsplit : F.map (interpLinear r)
      = List.zipWith (· ++ ·) (F1.map (interpLinear r)) (F2.map (interpLinear r))) :
    (turnRows fs r F).map sinRow
      = List.zipWith (· ++ ·) ((turnRows fs r F1).map sinRow)
          ((List.zipWith (fun row c => row.map (fun q => q + c)) (turnRows fs r F2)
            ((turnRows fs r F1).map (fun row => Int.fract (row.getLastD 0)))).map
              sinRow) := by
  show ((F.map (interpLinear r)).map _).map sinRow = _
  rw [hFsplit]
  exact sinMat_turns_split fs (F1.map (interpLinear r)) (F2.map (interpLinear r))

/-- Matrix form of `fract_carry_append`: the stored phases after a whole
trajectory equal the stored phases after the second chunk is rendered on top
of the first chunk's stored phases (second-chunk rows nonempty). -/
theorem carry_turns_split (fs : ℕ) (U1 U2 : Mat) (hne : ∀ row ∈ U2, row ≠ []) :
    ((List.zipWith (· ++ ·) U1 U2).map (fun row =>
        (cumsum (row.map (fun f => f / (fs : ℚ)))).map Int.fract)).map
          (fun row => Int.fract (row.getLastD 0))
      = (List.zipWith (fun row c => row.map (fun q => q + c))
          (U2.map (fun row =>
            (cumsum (row.map (fun f => f / (fs : ℚ)))).map Int.fract))
          ((U1.map (fun row =>
            (cumsum (row.map (fun f => f / (fs : ℚ)))).map Int.fract)).map
              (fun row => Int.fract (row.getLastD 0)))).map
          (fun row => Int.fract (row.getLastD 0)) := by
  induction U1 generalizing U2 with
  | nil => cases U2 <;> simp
  | cons a as ih =>
    cases U2 with
    | nil => simp
    | cons b bs =>
      simp only [List.zipWith_cons_cons, List.map_cons]
      refine congrArg₂ _ ?_ (ih bs (fun w hw => hne w (List.mem_cons_of_mem b hw)))
      show Int.fract (((cumsum ((a ++ b).map (fun f => f / (fs : ℚ)))).map
          Int.fract).getLastD 0) = _
      rw [List.map_append]
      refine fract_carry_append _ _ ?_
      intro h
      exact hne b (List.mem_cons_self b bs) (List.map_eq_nil_iff.mp h)

/-- C3 (amended): streaming sine-phase continuity holds exactly up to the
control-rate upsampling of the frequency and amplitude trajectories.  For a
streaming `SineSynth` with `n` oscillators, starting from a freshly zeroed
phase state, splitting trajectories `F`/`A` into consecutive chunks and
rendering them in two consecutive streaming calls yields the single
streaming call's output signal and final phase state, and the single
streaming call from zeroed state also equals the non-streaming rendering of
the whole trajectory — **provided** the linear upsampling of each whole
trajectory equals the concatenation of the upsamplings of its chunks (e.g.
for constant trajectories).  The phase carry itself is exact: the turn counts
of the chunked and whole renderings differ only by integers, invisible to
`sin(2π·)`; only the upsampling near the chunk boundary can differ, as the
counterexample shows. -/
theorem C3_sine_phase_continuity (fs r n : ℕ) (F F1 F2 A A1 A2 : Mat)
    (hr : 0 < r)
    (hFn : F.length = n) (hF1 : F1.length = n) (hF2 : F2.length = n)
    (hAn : A.length = n) (hA1 : A1.length = n) (hA2 : A2.length = n)
    (hT : timeDim F = timeDim F1 + timeDim F2)
    (hT2 : 0 < timeDim F2)
    (hrectF1 : ∀ row ∈ F1, row.length = timeDim F1)
    (hrectF2 : ∀ row ∈ F2, row.length = timeDim F2)
    (hrectA1 : ∀ row ∈ A1, row.length = timeDim F1)
    (hFsplit : F.map (interpLinear r)
      = List.zipWith (· ++ ·) (F1.map (interpLinear r)) (F2.map (interpLinear r)))
    (hAsplit : A.map (interpLinear r)
      = List.zipWith (· ++ ·) (A1.map (interpLinear r)) (A2.map (interpLinear r))) :
    (sineSynthCall fs r n true none F A).1
      = ((sineSynthCall fs r n true none F1 A1).1.bind (fun s1 =>
          ((sineSynthCall fs r n true
              (sineSynthCall fs r n true none F1 A1).2 F2 A2).1.map
            (fun s2 => s1 ++ s2)))) ∧
    (sineSynthCall fs r n true none F A).2
      = (sineSynthCall fs r n true (sineSynthCall fs r n true none F1 A1).2 F2 A2).2 ∧
    (sineSynthCall fs r n true none F A).1
      = (sineSynthCall fs r n false none F A).1 := by
  have hbc : ∀ (X Y : List (List ℝ)), X.length = Y.length →
      bcastMul X Y = some (List.zipWith rowMul X Y) := by
    intro X Y h
    simp [bcastMul, h]
  have tW := sineTurnsCall_fresh fs r n F hFn
  have t1 := sineTurnsCall_fresh fs r n F1 hF1
  have hph1len : ((turnRows fs r F1).map
      (fun row => Int.fract (row.getLastD 0))).length = n := by
    rw [List.length_map, turnRows_length, hF1]
  have t2 := sineTurnsCall_carry fs r n F2
    ((turnRows fs r F1).map (fun row => Int.fract (row.getLastD 0))) hF2 hph1len
  have hs2 : (sineSynthCall fs r n true none F1 A1).2
      = some ((turnRows fs r F1).map (fun row => Int.fract (row.getLastD 0))) := by
    show (sineTurnsCall fs r n true none F1).2 = _
    rw [t1]
  have eW : (sineSynthCall fs r n true none F A).1
      = some (mixDown (List.zipWith rowMul ((A.map (interpLinear r)).map castRow)
          ((turnRows fs r F).map sinRow)) (r * timeDim F)) := by
    show ((sineTurnsCall fs r n true none F).1.bind _) = _
    rw [tW]
    show ((bcastMul ((A.map (interpLinear r)).map castRow)
      ((turnRows fs r F).map sinRow)).map _) = _
    rw [hbc _ _ (by simp [turnRows, hAn, hFn])]
    rfl
  have e1 : (sineSynthCall fs r n true none F1 A1).1
      = some (mixDown (List.zipWith rowMul ((A1.map (interpLinear r)).map castRow)
          ((turnRows fs r F1).map sinRow)) (r * timeDim F1)) := by
    show ((sineTurnsCall fs r n true none F1).1.bind _) = _
    rw [t1]
    show ((bcastMul ((A1.map (interpLinear r)).map castRow)
      ((turnRows fs r F1).map sinRow)).map _) = _
    rw [hbc _ _ (by simp [turnRows, hA1, hF1])]
    rfl
  have e2 : (sineSynthCall fs r n true
        (some ((turnRows fs r F1).map (fun row => Int.fract (row.getLastD 0))))
        F2 A2).1
      = some (mixDown (List.zipWith rowMul ((A2.map (interpLinear r)).map castRow)
          ((List.zipWith (fun row c => row.map (fun q => q + c)) (turnRows fs r F2)
            ((turnRows fs r F1).map (fun row => Int.fract (row.getLastD 0)))).map
              sinRow)) (r * timeDim F2)) := by
    show ((sineTurnsCall fs r n true _ F2).1.bind _) = _
    rw [t2]
    show ((bcastMul ((A2.map (interpLinear r)).map castRow) _).map _) = _
    rw [hbc _ _ (by
      simp [turnRows, hA2, hF2, hF1, List.length_zipWith, hph1len])]
    rfl
  have hX : (A.map (interpLinear r)).map castRow
      = List.zipWith (· ++ ·) ((A1.map (interpLinear r)).map castRow)
          ((A2.map (interpLinear r)).map castRow) := by
    rw [hAsplit]
    exact map_rows_zipWith_append castRow (fun a b => List.map_append _ _ _) _ _
  have hY := sinMat_split fs r F F1 F2 hFsplit
  have hrowX1 : ∀ row ∈ (A1.map (interpLinear r)).map castRow,
      row.length = r * timeDim F1 := by
    intro row hrw
    rw [List.mem_map] at hrw
    obtain ⟨w, hw, rfl⟩ := hrw
    rw [List.mem_map] at hw
    obtain ⟨a, ha, rfl⟩ := hw
    rw [castRow, List.length_map, interpLinear_length, hrectA1 a ha]
  have hrowY1 : ∀ row ∈ (turnRows fs r F1).map sinRow,
      row.length = r * timeDim F1 := by
    intro row hrw
    rw [List.mem_map] at hrw
    obtain ⟨w, hw, rfl⟩ := hrw
    rw [turnRows, List.mem_map] at hw
    obtain ⟨u, hu, rfl⟩ := hw
    rw [List.mem_map] at hu
    obtain ⟨f, hf, rfl⟩ := hu
    simp [sinRow, cumsum_length, interpLinear_length, hrectF1 f hf]
  have hprod : List.zipWith rowMul ((A.map (interpLinear r)).map castRow)
        ((turnRows fs r F).map sinRow)
      = List.zipWith (· ++ ·)
          (List.zipWith rowMul ((A1.map (interpLinear r)).map castRow)
            ((turnRows fs r F1).map sinRow))
          (List.zipWith rowMul ((A2.map (interpLinear r)).map castRow)
            ((List.zipWith (fun row c => row.map (fun q => q + c)) (turnRows fs r F2)
              ((turnRows fs r F1).map (fun row => Int.fract (row.getLastD 0)))).map
                sinRow)) := by
    rw [hX, hY]
    exact zipWith_rowMul_append _ _ _ _ (r * timeDim F1)
      (by simp [turnRows, hA1, hF1]) (by simp [hA1, hA2])
      (by simp [turnRows, hA1, hF1, hF2, List.length_zipWith, hph1len]) hrowX1 hrowY1
  refine ⟨?_, ?_, ?_⟩
  · rw [hs2, eW, e1, e2]
    refine congrArg some ?_
    rw [hprod, hT, Nat.mul_add]
    exact mixDown_split _ _ _ _
      (by simp [turnRows, hA1, hA2, hF1, hF2, List.length_zipWith, hph1len, castRow])
      (zipWith_rowMul_row_length _ _ _ hrowX1 hrowY1)
  · rw [hs2]
    show (sineTurnsCall fs r n true none F).2
        = (sineTurnsCall fs r n true _ F2).2
    rw [tW, t2]
    refine congrArg some ?_
    show ((F.map (interpLinear r)).map _).map _ = _
    rw [hFsplit]
    refine carry_turns_split fs (F1.map (interpLinear r)) (F2.map (interpLinear r)) ?_
    intro row hrw
    rw [List.mem_map] at hrw
    obtain ⟨f, hf, rfl⟩ := hrw
    intro hcontra
    have := interpLinear_length r f
    rw [hcontra, hrectF2 f hf] at this
    simp at this
    omega
  · have eNS : (sineSynthCall fs r n false none F A).1
        = some (mixDown (List.zipWith rowMul ((A.map (interpLinear r)).map castRow)
            ((turnRows fs r F).map sinRow)) (r * timeDim F)) := by
      show ((bcastMul ((A.map (interpLinear r)).map castRow)
        ((turnRows fs r F).map sinRow)).map _) = _
      rw [hbc _ _ (by simp [turnRows, hAn, hFn])]
      rfl
    rw [eW, eNS]

/-- The signal component of a sine render, unfolded. -/
theorem sineSynthCall_fst (fs r n : ℕ) (streaming : Bool) (ph0 : Option (List ℚ))
    (F A : Mat) :
    (sineSynthCall fs r n streaming ph0 F A).1
      = (sineTurnsCall fs r n streaming ph0 F).1.bind (fun tns =>
          (bcastMul ((A.map (interpLinear r)).map castRow) (tns.map sinRow)).map
            (fun p => mixDown p (r * timeDim F))) := rfl

/-- The state component of a sine render is the state component of its phase
computation. -/
theorem sineSynthCall_snd (fs r n : ℕ) (streaming : Bool) (ph0 : Option (List ℚ))
    (F A : Mat) :
    (sineSynthCall fs r n streaming ph0 F A).2
      = (sineTurnsCall fs r n streaming ph0 F).2 := rfl

set_option maxRecDepth 8000 in
/-- C3 counterexample: fs 4, resampling factor 2, one oscillator, streaming
from freshly zeroed phase state.  The constant 1 Hz frequency trajectory of
control length 2 with amplitude trajectory `[0, 1]`, rendered in one call,
gives the signal `[0, 0, -3/4, 0]`; rendered as the two consecutive chunks
(`[1]`,`[0]`) then (`[1]`,`[1]`) it gives `[0, 0] ++ [-1, 0]`.  The phase
carry is exact (both renderings hit the same phases), but the linear
upsampling of the amplitudes clamps at the chunk edge, so sample 2 is `-1`
instead of `-3/4` — far outside floating tolerance. -/
theorem C3_chunked_sine_render_differs :
    (sineSynthCall 4 2 1 true none [[1, 1]] [[0, 1]]).1
      ≠ ((sineSynthCall 4 2 1 true none [[1]] [[0]]).1.bind (fun s1 =>
          ((sineSynthCall 4 2 1 true (sineSynthCall 4 2 1 true none [[1]] [[0]]).2
              [[1]] [[1]]).1.map (fun s2 => s1 ++ s2)))) := by
  have htrW : turnRows 4 2 [[1, 1]] = [[1/4, 1/2, 3/4, 0]] := by
    rw [turnRows]
    norm_num [interpLinear, srcIndex, List.range_succ, cumsum, Int.fract]
  have htr1 : turnRows 4 2 [[1]] = [[1/4, 1/2]] := by
    rw [turnRows]
    norm_num [interpLinear, srcIndex, List.range_succ, cumsum, Int.fract]
  have tW : sineTurnsCall 4 2 1 true none [[1, 1]]
      = (some [[1/4, 1/2, 3/4, 0]], some [0]) := by
    show sineTurnsAux (turnRows 4 2 [[1, 1]])
      ((none : Option (List ℚ)).getD (List.replicate 1 0)) = _
    rw [htrW]
    simp only [Option.getD_none, List.replicate_one]
    unfold sineTurnsAux
    rw [if_pos (show ([[(1:ℚ)/4, 1/2, 3/4, 0]] : Mat).length = [(0:ℚ)].length from rfl)]
    simp only [List.zipWith_cons_cons, List.zipWith_nil_right, List.map_cons,
      List.map_nil, List.getLastD_cons, Prod.mk.injEq]
    norm_num [Int.fract]
  have t1 : sineTurnsCall 4 2 1 true none [[1]]
      = (some [[1/4, 1/2]], some [1/2]) := by
    show sineTurnsAux (turnRows 4 2 [[1]])
      ((none : Option (List ℚ)).getD (List.replicate 1 0)) = _
    rw [htr1]
    simp only [Option.getD_none, List.replicate_one]
    unfold sineTurnsAux
    rw [if_pos (show ([[(1:ℚ)/4, 1/2]] : Mat).length = [(0:ℚ)].length from rfl)]
    simp only [List.zipWith_cons_cons, List.zipWith_nil_right, List.map_cons,
      List.map_nil, List.getLastD_cons, Prod.mk.injEq]
    norm_num [Int.fract]
  have t2 : sineTurnsCall 4 2 1 true (some [1/2]) [[1]]
      = (some [[3/4, 1]], some [0]) := by
    show sineTurnsAux (turnRows 4 2 [[1]])
      ((some [(1:ℚ)/2]).getD (List.replicate 1 0)) = _
    rw [htr1]
    simp only [Option.getD_some]
    unfold sineTurnsAux
    rw [if_pos (show ([[(1:ℚ)/4, 1/2]] : Mat).length = [(1:ℚ)/2].length from rfl)]
    simp only [List.zipWith_cons_cons, List.zipWith_nil_right, List.map_cons,
      List.map_nil, List.getLastD_cons, Prod.mk.injEq]
    norm_num [Int.fract]
  have s34 : Real.sin (2 * Real.pi * (3/4 : ℝ)) = -1 := by
    rw [show (2 : ℝ) * Real.pi * (3/4 : ℝ) = Real.pi / 2 + Real.pi by ring]
    rw [Real.sin_add_pi, Real.sin_pi_div_two]
  have s12 : Real.sin (2 * Real.pi * (1/2 : ℝ)) = 0 := by
    rw [show (2 : ℝ) * Real.pi * (1/2 : ℝ) = Real.pi by ring]
    exact Real.sin_pi
  have s0 : Real.sin (2 * Real.pi * (0 : ℝ)) = 0 := by norm_num
  have eW : (sineSynthCall 4 2 1 true none [[1, 1]] [[0, 1]]).1
      = some [0, 0, -(3/4 : ℝ), 0] := by
    rw [sineSynthCall_fst, tW,
      show ([[0, 1]] : Mat).map (interpLinear 2) = [[0, 1/4, 3/4, 1]] by
        norm_num [interpLinear, srcIndex, List.range_succ]]
    simp only [Option.some_bind]
    unfold bcastMul castRow sinRow rowMul mixDown timeDim
    simp only [List.map_cons, List.map_nil, List.length_cons, List.length_nil,
      List.zipWith_cons_cons, List.zipWith_nil_right, List.headD_cons, if_pos,
      Option.map_some']
    norm_num [List.range_succ, List.getD_cons_zero, List.getD_cons_succ,
      s34, s12, s0]
  have hs2 : (sineSynthCall 4 2 1 true none [[1]] [[0]]).2 = some [1/2] := by
    rw [sineSynthCall_snd, t1]
  have e1 : (sineSynthCall 4 2 1 true none [[1]] [[0]]).1 = some [0, (0 : ℝ)] := by
    rw [sineSynthCall_fst, t1,
      show ([[0]] : Mat).map (interpLinear 2) = [[0, 0]] by
        norm_num [interpLinear, srcIndex, List.range_succ]]
    simp only [Option.some_bind]
    unfold bcastMul castRow sinRow rowMul mixDown timeDim
    simp only [List.map_cons, List.map_nil, List.length_cons, List.length_nil,
      List.zipWith_cons_cons, List.zipWith_nil_right, List.headD_cons, if_pos,
      Option.map_some']
    norm_num [List.range_succ, List.getD_cons_zero, List.getD_cons_succ]
  have e2 : (sineSynthCall 4 2 1 true (some [1/2]) [[1]] [[1]]).1
      = some [-1, (0 : ℝ)] := by
    rw [sineSynthCall_fst, t2,
      show ([[1]] : Mat).map (interpLinear 2) = [[1, 1]] by
        norm_num [interpLinear, srcIndex, List.range_succ]]
    simp only [Option.some_bind]
    unfold bcastMul castRow sinRow rowMul mixDown timeDim
    simp only [List.map_cons, List.map_nil, List.length_cons, List.length_nil,
      List.zipWith_cons_cons, List.zipWith_nil_right, List.headD_cons, if_pos,
      Option.map_some']
    norm_num [List.range_succ, List.getD_cons_zero, List.getD_cons_succ,
      s34, Real.sin_two_pi]
  rw [eW, hs2, e1, e2]
  simp only [Option.some_bind, Option.map_some']
  norm_num

set_option maxRecDepth 8000 in
set_option maxHeartbeats 1000000 in
/-- Witness for C3: fs 4, resampling factor 2, one oscillator, constant
frequency trajectory `[1, 1]` split as `[1]` then `[1]` and constant
amplitude trajectory `[2, 2]` split as `[2]` then `[2]`; constant
trajectories upsample chunk-compatibly, so the amended continuity theorem
applies. -/
theorem C3_sine_phase_continuity_witness :
    (([[1, 1]] : Mat).map (interpLinear 2)
        = List.zipWith (· ++ ·) (([[1]] : Mat).map (interpLinear 2))
            (([[1]] : Mat).map (interpLinear 2))) ∧
    (([[2, 2]] : Mat).map (interpLinear 2)
        = List.zipWith (· ++ ·) (([[2]] : Mat).map (interpLinear 2))
            (([[2]] : Mat).map (interpLinear 2))) ∧
    ((sineSynthCall 4 2 1 true none [[1, 1]] [[2, 2]]).1
        = ((sineSynthCall 4 2 1 true none [[1]] [[2]]).1.bind (fun s1 =>
            ((sineSynthCall 4 2 1 true
                (sineSynthCall 4 2 1 true none [[1]] [[2]]).2 [[1]] [[2]]).1.map
              (fun s2 => s1 ++ s2)))) ∧
      (sineSynthCall 4 2 1 true none [[1, 1]] [[2, 2]]).2
        = (sineSynthCall 4 2 1 true
            (sineSynthCall 4 2 1 true none [[1]] [[2]]).2 [[1]] [[2]]).2 ∧
      (sineSynthCall 4 2 1 true none [[1, 1]] [[2, 2]]).1
        = (sineSynthCall 4 2 1 false none [[1, 1]] [[2, 2]]).1) := by
  have hsplitF : ([[1, 1]] : Mat).map (interpLinear 2)
      = List.zipWith (· ++ ·) (([[1]] : Mat).map (interpLinear 2))
          (([[1]] : Mat).map (interpLinear 2)) := by
    norm_num [interpLinear, srcIndex, List.range_succ]
  have hsplitA : ([[2, 2]] : Mat).map (interpLinear 2)
      = List.zipWith (· ++ ·) (([[2]] : Mat).map (interpLinear 2))
          (([[2]] : Mat).map (interpLinear 2)) := by
    norm_num [interpLinear, srcIndex, List.range_succ]
  exact ⟨hsplitF, hsplitA,
    C3_sine_phase_continuity 4 2 1 [[1, 1]] [[1]] [[1]] [[2, 2]] [[2]] [[2]]
      (by norm_num) (by simp) (by simp) (by simp) (by simp) (by simp) (by simp)
      (by norm_num [timeDim]) (by norm_num [timeDim])
      (by intro row hr; simp [timeDim] at hr ⊢; simp [hr])
      (by intro row hr; simp [timeDim] at hr ⊢; simp [hr])
      (by intro row hr; simp [timeDim] at hr ⊢; simp [hr])
      hsplitF hsplitA⟩

end NBN
